import Mathlib

/-!
# The telemetry handler of the MPC driver (`src/main.cpp`)

A shallow embedding of the arithmetic that `main.cpp` performs on every
`telemetry` event, from the waypoint transform (lines 54-62) to the fields of
the `steer` reply (lines 103-130).

* `double` is read as an arbitrary field `K`; the theorems take `K := ℝ`.
* `cos`, `sin`, `atan` and `M_PI` come from `<math.h>`.  They are arguments of
  the definitions, and the theorems pass `Real.cos`, `Real.sin`, `Real.arctan`
  and `Real.pi`.
* `std::vector<double>` and `Eigen::VectorXd` are lists.  `operator[]` is
  modelled as a total operation: a function whose source text can index out of
  range returns `Option`, and `none` stands for such an access.
* `MPC::Solve` and `polyfit` are declared in headers that are not among the
  sources.  Their results (`vars`, `coeffs`) are arguments.  `polyeval` is
  defined in `helpers.h`, which is not among the sources either; it is modelled
  from the spec's description of the reference path.
* The loop counters are C `int`s; they are natural numbers here (the vectors
  hold a handful of entries).
-/

namespace MPC

section Vectors

variable {α : Type}

/-- The view `Eigen::Map<Eigen::VectorXd> view(&xs[0], size)` of lines 64-68:
the vector whose entry `j`, for `j < size`, is read from `xs[j]`; `none` when one of
these entries is past the end of `xs`. -/
def mapView (xs : List α) (size : Nat) : Option (List α) :=
  (List.range size).mapM (fun j => xs[j]?)

/-- Line 128: `msgJson["throttle"] = vars[1]`. -/
def throttle (vars : List α) : Option α := vars[1]?

/-- The loop of lines 107-114, entered with counter `i`: an entry of `vars` at
an even index is pushed onto `mpc_x_vals`, one at an odd index onto
`mpc_y_vals`. -/
def mpcLoop (vars : List α) (i : Nat) (mpc_x_vals mpc_y_vals : List α) : List α × List α :=
  if h : i < vars.length then
    if i % 2 = 0 then
      mpcLoop vars (i + 1) (mpc_x_vals ++ [vars[i]]) mpc_y_vals
    else
      mpcLoop vars (i + 1) mpc_x_vals (mpc_y_vals ++ [vars[i]])
  else (mpc_x_vals, mpc_y_vals)
termination_by vars.length - i

/-- Lines 104-114 and 129-130: `mpc_x` and `mpc_y` of the reply; both vectors
start empty and the loop starts at `i = 2`. -/
def mpcVals (vars : List α) : List α × List α := mpcLoop vars 2 [] []

end Vectors

section Embedding

variable {K : Type} [Field K]

/-- Line 21: `double deg2rad(double x) { return x * pi() / 180; }`; the
argument `pi` is the value of `pi()`, that is `M_PI`. -/
def deg2rad (pi x : K) : K := x * pi / 180

/-- Line 23: `const double Lf = 2.67;`. -/
def Lf : K := 2.67

/-- The waypoint loop of lines 54-62, entered with counter `i`:
`for (; i < ptsx.size(); ++i)` reads `ptsx[i]` and `ptsy[i]`, and overwrites
both with the shifted and rotated point.  `none` is an access to `ptsy[i]`
past the end of `ptsy`. -/
def transformLoop (cos sin : K → K) (px py psi : K) (i : Nat) (ptsx ptsy : List K) :
    Option (List K × List K) :=
  if hx : i < ptsx.length then
    if hy : i < ptsy.length then
      let shift_x := ptsx[i] - px
      let shift_y := ptsy[i] - py
      transformLoop cos sin px py psi (i + 1)
        (ptsx.set i (shift_x * cos (-psi) - shift_y * sin (-psi)))
        (ptsy.set i (shift_x * sin (-psi) + shift_y * cos (-psi)))
    else none
  else some (ptsx, ptsy)
termination_by ptsx.length - i
decreasing_by
  simp only [List.length_set]
  omega

/-- Lines 54-62: the loop started at `i = 0`. -/
def transformWaypoints (cos sin : K → K) (px py psi : K) (ptsx ptsy : List K) :
    Option (List K × List K) :=
  transformLoop cos sin px py psi 0 ptsx ptsy

/-- Lines 54-68: the two arguments `ptsx_transform`, `ptsy_transform` of
`polyfit` on line 71. -/
def fitInputs (cos sin : K → K) (px py psi : K) (ptsx ptsy : List K) :
    Option (List K × List K) :=
  match transformWaypoints cos sin px py psi ptsx ptsy with
  | some (tx, ty) =>
    match mapView tx 6, mapView ty 6 with
    | some ptsx_transform, some ptsy_transform => some (ptsx_transform, ptsy_transform)
    | _, _ => none
  | none => none

/-- The sum `coeffs[k] * x^i + coeffs[k+1] * x^(i+1) + ...` over the remaining
coefficients. -/
def polyevalFrom (x : K) : Nat → List K → K
  | _, [] => 0
  | i, c :: cs => c * x ^ i + polyevalFrom x (i + 1) cs

/-- Modelled from the spec: `polyeval` is defined in `helpers.h`, which is not
among the sources.  The spec (section 3, PathCoefficients) describes the
reference path as `y = c0 + c1·x + c2·x² + c3·x³`, so `polyeval coeffs x` is
the sum of `coeffs[i] * x^i`. -/
def polyeval (coeffs : List K) (x : K) : K := polyevalFrom x 0 coeffs

/-- Lines 74-75: `cte = polyeval(coeffs, 0)` and `epsi = -atan(coeffs[1])`;
`none` when `coeffs` has no entry 1. -/
def trackingErrors (atan : K → K) (coeffs : List K) : Option (K × K) :=
  match coeffs[1]? with
  | some c1 => some (polyeval coeffs 0, -atan c1)
  | none => none

/-- Lines 78-88: the vector `state` that line 96 hands to `mpc.Solve`. -/
def latencyState (sin : K → K) (v delta a cte epsi : K) : List K :=
  let dt : K := 0.1
  let pred_x := 0.0 + v * dt
  let pred_y : K := 0.0
  let pred_psi := 0.0 - v * delta / Lf * dt
  let pred_v := v + a * dt
  let pred_cte := cte + v * sin epsi * dt
  let pred_epsi := epsi + pred_psi
  [pred_x, pred_y, pred_psi, pred_v, pred_cte, pred_epsi]

/-- Line 127: `msgJson["steering_angle"] = vars[0]/(deg2rad(25)*Lf)`. -/
def steering_angle (pi : K) (vars : List K) : Option K :=
  match vars[0]? with
  | some d => some (d / (deg2rad pi 25 * Lf))
  | none => none

/-- The state of the vehicle model, in the order of the solver's state vector. -/
structure VehicleState (K : Type) where
  x : K
  y : K
  psi : K
  v : K
  cte : K
  epsi : K

/-- The state as the vector `(x, y, psi, v, cte, epsi)`. -/
def VehicleState.toVector (s : VehicleState K) : List K :=
  [s.x, s.y, s.psi, s.v, s.cte, s.epsi]

/-- The vehicle dynamics model in the words of spec section 4.1, the map
`(state_t, δ_t, a_t, dt, L_f) ↦ state_{t+1}`, equation by equation as the
spec gives it.  It is not taken from `main.cpp`: it is the reference that
`latencyState` is compared with. -/
def specVehicleModelStep (cos sin : K → K) (s : VehicleState K) (delta a dt L_f : K) :
    VehicleState K where
  x := s.x + s.v * cos s.psi * dt
  y := s.y + s.v * sin s.psi * dt
  psi := s.psi + (s.v / L_f) * delta * dt
  v := s.v + a * dt
  cte := s.cte + s.v * sin s.epsi * dt
  epsi := s.epsi + (s.v / L_f) * delta * dt

end Embedding

/-! ## Lemmas on the loops -/

section VectorLemmas

variable {α : Type}

/-- A view of six entries over a vector of at least six is its first six
entries. -/
theorem mapView_six (xs : List α) (h : 6 ≤ xs.length) : mapView xs 6 = some (xs.take 6) := by
  match xs, h with
  | a0 :: a1 :: a2 :: a3 :: a4 :: a5 :: rest, _ =>
    simp only [mapView]
    rw [show List.range 6 = [0, 1, 2, 3, 4, 5] from rfl]
    simp only [List.mapM_cons, List.mapM_nil]
    simp

/-- The unpacking loop, entered at the even index `pre.length` with the pairs
`pts` still to read: the first components go to `mpc_x_vals`, the second to
`mpc_y_vals`. -/
theorem mpcLoop_append :
    ∀ (pts : List (α × α)) (pre mx my : List α), pre.length % 2 = 0 →
      mpcLoop (pre ++ pts.flatMap (fun p => [p.1, p.2])) pre.length mx my
        = (mx ++ pts.map Prod.fst, my ++ pts.map Prod.snd) := by
  intro pts
  induction pts with
  | nil =>
    intro pre mx my _
    rw [mpcLoop]
    simp
  | cons p pts ih =>
    intro pre mx my hpre
    have hflat : pre ++ List.flatMap (p :: pts) (fun p : α × α => [p.1, p.2])
        = pre ++ p.1 :: p.2 :: pts.flatMap (fun p => [p.1, p.2]) := by
      simp [List.flatMap_cons]
    rw [hflat, mpcLoop]
    have h1 : pre.length
        < (pre ++ p.1 :: p.2 :: pts.flatMap (fun p : α × α => [p.1, p.2])).length := by
      simp
    rw [dif_pos h1, if_pos hpre, mpcLoop]
    have h2 : pre.length + 1
        < (pre ++ p.1 :: p.2 :: pts.flatMap (fun p : α × α => [p.1, p.2])).length := by
      simp
    have hodd : ¬ (pre.length + 1) % 2 = 0 := by omega
    rw [dif_pos h2, if_neg hodd]
    have g1 : (pre ++ p.1 :: p.2 :: pts.flatMap (fun p : α × α => [p.1, p.2]))[pre.length]
        = p.1 := by
      rw [List.getElem_append_right (Nat.le_refl _)]; simp
    have g2 : (pre ++ p.1 :: p.2 :: pts.flatMap (fun p : α × α => [p.1, p.2]))[pre.length + 1]
        = p.2 := by
      rw [List.getElem_append_right (Nat.le_succ _)]; simp
    rw [g1, g2]
    have e : pre ++ p.1 :: p.2 :: pts.flatMap (fun p : α × α => [p.1, p.2])
        = (pre ++ [p.1, p.2]) ++ pts.flatMap (fun p => [p.1, p.2]) := by simp
    have hl : pre.length + 1 + 1 = (pre ++ [p.1, p.2]).length := by simp
    rw [e, hl, ih _ _ _ (by simp; omega)]
    simp

end VectorLemmas

section Lemmas

variable {K : Type} [Field K]

/-- The waypoint loop, entered at `i = pre.length` with the entries before `i`
already rewritten: it returns, and every remaining pair is replaced by its
shifted and rotated image. -/
theorem transformLoop_append (cos sin : K → K) (px py psi : K) :
    ∀ (xs ys pre pre' : List K), xs.length = ys.length → pre.length = pre'.length →
      transformLoop cos sin px py psi pre.length (pre ++ xs) (pre' ++ ys)
        = some
            (pre ++ List.zipWith
              (fun x y => (x - px) * cos (-psi) - (y - py) * sin (-psi)) xs ys,
             pre' ++ List.zipWith
              (fun x y => (x - px) * sin (-psi) + (y - py) * cos (-psi)) xs ys) := by
  intro xs
  induction xs with
  | nil =>
    intro ys pre pre' hlen hpre
    have hys : ys = [] := List.length_eq_zero.mp hlen.symm
    subst hys
    rw [transformLoop]
    simp
  | cons x xs ih =>
    intro ys pre pre' hlen hpre
    cases ys with
    | nil => simp at hlen
    | cons y ys =>
      have hlen' : xs.length = ys.length := by simpa using hlen
      rw [transformLoop]
      have h1 : pre.length < (pre ++ x :: xs).length := by simp
      have h2 : pre.length < (pre' ++ y :: ys).length := by rw [hpre]; simp
      rw [dif_pos h1, dif_pos h2]
      have gx : (pre ++ x :: xs)[pre.length] = x := by
        rw [List.getElem_append_right (Nat.le_refl _)]; simp
      have gy : (pre' ++ y :: ys)[pre.length] = y := by
        rw [List.getElem_append_right (Nat.le_of_eq hpre.symm)]; simp [hpre]
      simp only [gx, gy]
      have sx : ∀ a : K, (pre ++ x :: xs).set pre.length a = (pre ++ [a]) ++ xs := by
        intro a; simp
      have sy : ∀ b : K, (pre' ++ y :: ys).set pre.length b = (pre' ++ [b]) ++ ys := by
        intro b; simp [hpre]
      rw [sx, sy]
      have hl : pre.length + 1
          = (pre ++ [(x - px) * cos (-psi) - (y - py) * sin (-psi)]).length := by
        simp
      rw [hl, ih ys _ _ hlen' (by simp [hpre])]
      simp

/-- Lines 54-62 on two vectors of one length: the loop returns, and entry `i`
of each result is computed from `ptsx[i]` and `ptsy[i]`. -/
theorem transformWaypoints_eq (cos sin : K → K) (px py psi : K) (ptsx ptsy : List K)
    (hlen : ptsx.length = ptsy.length) :
    transformWaypoints cos sin px py psi ptsx ptsy
      = some
          (List.zipWith (fun x y => (x - px) * cos (-psi) - (y - py) * sin (-psi)) ptsx ptsy,
           List.zipWith (fun x y => (x - px) * sin (-psi) + (y - py) * cos (-psi)) ptsx ptsy) := by
  have h := transformLoop_append cos sin px py psi ptsx ptsy [] [] hlen rfl
  simpa [transformWaypoints] using h

/-- The steering divisor `deg2rad(25) * Lf` of line 127 is at least 1. -/
theorem one_le_steering_divisor : (1 : ℝ) ≤ deg2rad Real.pi 25 * Lf := by
  have hpi : (3 : ℝ) < Real.pi := Real.pi_gt_three
  unfold deg2rad Lf
  norm_num
  nlinarith

/-- The model of `polyeval` on four coefficients is the cubic of the spec. -/
theorem polyeval_cubic (c0 c1 c2 c3 x : K) :
    polyeval [c0, c1, c2, c3] x = c0 + c1 * x + c2 * x ^ 2 + c3 * x ^ 3 := by
  simp only [polyeval, polyevalFrom]
  ring

end Lemmas

/-! ## The reply: `steering_angle`, `throttle`, `mpc_x`, `mpc_y` -/

section Reply

/-- C1, evaluated on the code: for the solver output
`vars = [0.267, 0.5, 1, 0]` the `steering_angle` of the reply is
`0.1 / deg2rad(25)`, the raw command divided by `deg2rad(25)` and by
`Lf = 2.67` as well; it is not `0.267 / deg2rad(25)`, the raw command divided
by the steering bound alone. -/
theorem steering_angle_also_divides_by_Lf :
    steering_angle Real.pi [0.267, 0.5, 1, 0] = some (0.1 / deg2rad Real.pi 25) ∧
    steering_angle Real.pi [0.267, 0.5, 1, 0] ≠ some (0.267 / deg2rad Real.pi 25) := by
  have hpi : Real.pi ≠ 0 := Real.pi_ne_zero
  have h : deg2rad Real.pi 25 ≠ 0 := by
    unfold deg2rad
    positivity
  constructor
  · simp only [steering_angle, List.getElem?_cons_zero, Lf]
    congr 1
    field_simp
    ring
  · simp only [steering_angle, List.getElem?_cons_zero, Lf, ne_eq, Option.some.injEq]
    intro heq
    field_simp at heq
    norm_num at heq

/-- C2: for every solver output `vars = d :: rest` whose raw steering command
`d` satisfies `|d| ≤ 0.436`, the `steering_angle` of the reply exists and lies
in `[-1, 1]` (over the reals, with `pi() = π` and `Lf = 2.67`). -/
theorem steering_angle_in_unit_interval (d : ℝ) (rest : List ℝ) (hd : |d| ≤ 0.436) :
    ∃ s, steering_angle Real.pi (d :: rest) = some s ∧ -1 ≤ s ∧ s ≤ 1 := by
  refine ⟨d / (deg2rad Real.pi 25 * Lf), by simp [steering_angle], ?_⟩
  have hden : (1 : ℝ) ≤ deg2rad Real.pi 25 * Lf := one_le_steering_divisor
  have hpos : (0 : ℝ) < deg2rad Real.pi 25 * Lf := by linarith
  obtain ⟨h1, h2⟩ := abs_le.mp hd
  constructor
  · rw [le_div_iff₀ hpos]
    norm_num at h1 ⊢
    linarith
  · rw [div_le_iff₀ hpos]
    norm_num at h2 ⊢
    linarith

/-- The theorem of C2 at the solver output `[0.4, 1, 5, 0]`. -/
theorem steering_angle_in_unit_interval_witness :
    |(0.4 : ℝ)| ≤ 0.436 ∧
    ∃ s, steering_angle Real.pi [0.4, 1, 5, 0] = some s ∧ -1 ≤ s ∧ s ≤ 1 :=
  ⟨by norm_num [abs_le],
   steering_angle_in_unit_interval 0.4 [1, 5, 0] (by norm_num [abs_le])⟩

/-- C3: for every solver output `vars = d :: a :: rest`, the `throttle` of the
reply is `vars[1] = a` itself, with no scaling; so it lies in `[-1, 1]`
whenever `|a| ≤ 1`. -/
theorem throttle_is_unscaled (d a : ℝ) (rest : List ℝ) :
    throttle (d :: a :: rest) = some a ∧
    (|a| ≤ 1 → ∃ t, throttle (d :: a :: rest) = some t ∧ -1 ≤ t ∧ t ≤ 1) := by
  have h : throttle (d :: a :: rest) = some a := by simp [throttle]
  exact ⟨h, fun ha => ⟨a, h, abs_le.mp ha⟩⟩

/-- The theorem of C3 at the solver output `[0.1, -0.5, 5, 0]`. -/
theorem throttle_is_unscaled_witness :
    throttle [(0.1 : ℝ), -0.5, 5, 0] = some (-0.5) ∧
    ∃ t, throttle [(0.1 : ℝ), -0.5, 5, 0] = some t ∧ -1 ≤ t ∧ t ≤ 1 :=
  ⟨(throttle_is_unscaled 0.1 (-0.5) [5, 0]).1,
   (throttle_is_unscaled 0.1 (-0.5) [5, 0]).2 (by norm_num [abs_le])⟩

/-- C4: for every list `pts = [(x1, y1), ..., (xk, yk)]` and every solver
output `vars = [delta0, a0, x1, y1, ..., xk, yk]` (of length `2 + 2k`), the
unpacking loop yields `mpc_x = [x1, ..., xk]` and `mpc_y = [y1, ..., yk]`:
both of length `k`, in order, the j-th `x` paired with the j-th `y`, and
`delta0`, `a0` are in neither. -/
theorem mpcVals_unpacks_pairs {α : Type} (delta0 a0 : α) (pts : List (α × α)) :
    (delta0 :: a0 :: pts.flatMap (fun p => [p.1, p.2])).length = 2 + 2 * pts.length ∧
    mpcVals (delta0 :: a0 :: pts.flatMap (fun p => [p.1, p.2]))
      = (pts.map Prod.fst, pts.map Prod.snd) ∧
    (mpcVals (delta0 :: a0 :: pts.flatMap (fun p => [p.1, p.2]))).1.length = pts.length ∧
    (mpcVals (delta0 :: a0 :: pts.flatMap (fun p => [p.1, p.2]))).2.length = pts.length ∧
    List.zip (mpcVals (delta0 :: a0 :: pts.flatMap (fun p => [p.1, p.2]))).1
        (mpcVals (delta0 :: a0 :: pts.flatMap (fun p => [p.1, p.2]))).2 = pts := by
  have hlen : ∀ l : List (α × α), (l.flatMap (fun p => [p.1, p.2])).length = 2 * l.length := by
    intro l
    induction l with
    | nil => rfl
    | cons p l ih =>
      simp only [List.flatMap_cons, List.length_append, List.length_cons, List.length_nil, ih]
      omega
  have h : mpcVals (delta0 :: a0 :: pts.flatMap (fun p => [p.1, p.2]))
      = (pts.map Prod.fst, pts.map Prod.snd) := by
    have := mpcLoop_append pts [delta0, a0] [] [] (by simp)
    simpa [mpcVals] using this
  refine ⟨?_, h, ?_, ?_, ?_⟩
  · simp only [List.length_cons, hlen]
    omega
  · rw [h]; simp
  · rw [h]; simp
  · rw [h]
    have := List.zip_unzip pts
    rwa [List.unzip_eq_map] at this

end Reply

/-! ## Tracking errors and latency compensation -/

section StateEstimate

/-- C5, refuted on the code: at speed 1, steering angle 1 and zero throttle
and errors, the state handed to `Solve` is not one step of the spec's vehicle
model from `(0, 0, 0, 1, 0, 0)` with actuation `(1, 0)`, `dt = 0.1`,
`L_f = 2.67`, and it is not the tuple the claim spells out: the code's heading
is `-(0.1 / 2.67)`, the model's is `+(0.1 / 2.67)`. -/
theorem latencyState_not_model_step :
    latencyState Real.sin 1 1 0 0 0
      ≠ (specVehicleModelStep Real.cos Real.sin ⟨0, 0, 0, 1, 0, 0⟩ 1 0 0.1 2.67).toVector ∧
    latencyState Real.sin 1 1 0 0 0
      ≠ [1 * 0.1, 0, (1 / 2.67) * 1 * 0.1, 1 + 0 * 0.1, 0 + 1 * Real.sin 0 * 0.1,
         0 + (1 / 2.67) * 1 * 0.1] := by
  constructor
  · simp only [latencyState, Lf, specVehicleModelStep, VehicleState.toVector, Real.cos_zero,
      Real.sin_zero]
    norm_num
  · simp only [latencyState, Lf, Real.sin_zero]
    norm_num

/-- C5 as amended: for every speed `v`, steering angle `delta`, throttle `a`
and error pair `(cte, epsi)`, the state handed to `Solve` is one step of the
spec's vehicle model with `dt = 0.1` and `L_f = 2.67` from
`(0, 0, 0, v, cte, epsi)`, taken with the actuation `(-delta, a)`. -/
theorem latencyState_is_model_step_negated_steering (v delta a cte epsi : ℝ) :
    latencyState Real.sin v delta a cte epsi
      = (specVehicleModelStep Real.cos Real.sin ⟨0, 0, 0, v, cte, epsi⟩
          (-delta) a 0.1 2.67).toVector := by
  simp only [latencyState, Lf, specVehicleModelStep, VehicleState.toVector, Real.cos_zero,
    Real.sin_zero]
  norm_num
  ring

/-- C7: for every coefficient vector `(c0, c1, c2, c3)`, with `polyeval` the
cubic `f(x) = c0 + c1 x + c2 x² + c3 x³`, the tracking errors are
`cte = c0 = f(0)` and `epsi = -atan(c1) = -atan(f'(0))`; both are 0 for the
flat reference `(0, 0, 0, 0)`. -/
theorem trackingErrors_at_origin (c0 c1 c2 c3 : ℝ) :
    (∀ x, polyeval [c0, c1, c2, c3] x = c0 + c1 * x + c2 * x ^ 2 + c3 * x ^ 3) ∧
    polyeval [c0, c1, c2, c3] 0 = c0 ∧
    deriv (polyeval [c0, c1, c2, c3]) 0 = c1 ∧
    trackingErrors Real.arctan [c0, c1, c2, c3]
      = some (polyeval [c0, c1, c2, c3] 0,
              -Real.arctan (deriv (polyeval [c0, c1, c2, c3]) 0)) ∧
    trackingErrors Real.arctan [c0, c1, c2, c3] = some (c0, -Real.arctan c1) ∧
    trackingErrors Real.arctan [(0 : ℝ), 0, 0, 0] = some (0, 0) := by
  have hd : deriv (polyeval [c0, c1, c2, c3]) 0 = c1 := by
    have hfun : polyeval [c0, c1, c2, c3]
        = fun x => c0 + c1 * x + c2 * x ^ 2 + c3 * x ^ 3 :=
      funext (polyeval_cubic c0 c1 c2 c3)
    rw [hfun]
    have hda : HasDerivAt (fun x : ℝ => c0 + c1 * x + c2 * x ^ 2 + c3 * x ^ 3)
        (0 + c1 * 1 + c2 * (2 * (0 : ℝ) ^ (2 - 1) * 1) + c3 * (3 * (0 : ℝ) ^ (3 - 1) * 1)) 0 :=
      (((hasDerivAt_const (0 : ℝ) c0).add ((hasDerivAt_id (0 : ℝ)).const_mul c1)).add
        (((hasDerivAt_id (0 : ℝ)).pow 2).const_mul c2)).add
        (((hasDerivAt_id (0 : ℝ)).pow 3).const_mul c3)
    rw [hda.deriv]
    norm_num
  refine ⟨polyeval_cubic c0 c1 c2 c3, ?_, hd, ?_, ?_, ?_⟩
  · simp [polyeval_cubic]
  · rw [hd]; simp [trackingErrors]
  · simp [trackingErrors, polyeval_cubic]
  · simp [trackingErrors, polyeval_cubic]

/-- C8: for every telemetry `(v, delta, a)` and fitted `(cte, epsi)`, the
state handed to `Solve` is, in the order `(x, y, psi, v, cte, epsi)`,
`(0.1 v, 0, -0.1 v delta / 2.67, v + 0.1 a, cte + 0.1 v sin(epsi),
epsi - 0.1 v delta / 2.67)`: one step of 0.1 s of the kinematic bicycle model
from `(0, 0, 0, v, cte, epsi)` with the steering angle negated. -/
theorem latencyState_eq (v delta a cte epsi : ℝ) :
    latencyState Real.sin v delta a cte epsi
      = [0.1 * v, 0, -0.1 * v * delta / 2.67, v + 0.1 * a,
         cte + 0.1 * v * Real.sin epsi, epsi - 0.1 * v * delta / 2.67] ∧
    [0.1 * v, 0, -0.1 * v * delta / 2.67, v + 0.1 * a,
         cte + 0.1 * v * Real.sin epsi, epsi - 0.1 * v * delta / 2.67]
      = (specVehicleModelStep Real.cos Real.sin ⟨0, 0, 0, v, cte, epsi⟩
          (-delta) a 0.1 2.67).toVector := by
  constructor
  · simp only [latencyState, Lf]
    norm_num
    refine ⟨?_, ?_, ?_, ?_, ?_⟩ <;> ring
  · simp only [specVehicleModelStep, VehicleState.toVector, Real.cos_zero, Real.sin_zero]
    norm_num
    refine ⟨?_, ?_, ?_, ?_, ?_⟩ <;> ring

end StateEstimate

/-! ## The waypoint transform -/

section Waypoints

/-- C6: for every vehicle pose `(px, py, psi)` and every pair of waypoint
vectors of one length, the transform returns, and it maps world coordinates
into the vehicle frame: a waypoint at the vehicle position `(px, py)` goes to
`(0, 0)`, and for every real `d` the waypoint
`(px + d cos psi, py + d sin psi)`, `d` ahead along the heading, goes to
`(d, 0)`. -/
theorem transformWaypoints_vehicle_frame (px py psi : ℝ) (ptsx ptsy : List ℝ)
    (hlen : ptsx.length = ptsy.length) :
    ∃ tx ty, transformWaypoints Real.cos Real.sin px py psi ptsx ptsy = some (tx, ty) ∧
      ∀ i : Nat,
        (ptsx[i]? = some px → ptsy[i]? = some py → tx[i]? = some 0 ∧ ty[i]? = some 0) ∧
        (∀ d : ℝ, ptsx[i]? = some (px + d * Real.cos psi) →
          ptsy[i]? = some (py + d * Real.sin psi) → tx[i]? = some d ∧ ty[i]? = some 0) := by
  refine ⟨_, _, transformWaypoints_eq Real.cos Real.sin px py psi ptsx ptsy hlen, ?_⟩
  intro i
  have hsc : Real.sin psi ^ 2 + Real.cos psi ^ 2 = 1 := Real.sin_sq_add_cos_sq psi
  constructor
  · intro h1 h2
    simp [List.getElem?_zipWith, h1, h2]
  · intro d h1 h2
    simp only [List.getElem?_zipWith, h1, h2, Real.cos_neg, Real.sin_neg, Option.some.injEq]
    constructor
    · linear_combination d * hsc
    · ring

/-- The theorem of C6 for the pose `(1, 2, 0)` and the waypoints `(1, 2)`,
the vehicle position, and `(4, 2)`, which is 3 ahead. -/
theorem transformWaypoints_vehicle_frame_witness :
    ∃ tx ty, transformWaypoints Real.cos Real.sin 1 2 0 [1, 4] [2, 2] = some (tx, ty) ∧
      tx[0]? = some 0 ∧ ty[0]? = some 0 ∧ tx[1]? = some 3 ∧ ty[1]? = some 0 := by
  obtain ⟨tx, ty, h, hall⟩ :=
    transformWaypoints_vehicle_frame 1 2 0 [1, 4] [2, 2] rfl
  have h0 := (hall 0).1 (by simp) (by simp)
  have h1 := (hall 1).2 3 (by simp; norm_num) (by simp)
  exact ⟨tx, ty, h, h0.1, h0.2, h1.1, h1.2⟩

/-- C9: for every vehicle pose `(px, py, psi)` and any two waypoints
`P = (xi, yi)` and `Q = (xj, yj)` of the message, the transformed `P` is `P`
translated by `(-px, -py)` and then rotated by `-psi`, and the Euclidean
distance between the transformed `P` and the transformed `Q` equals the
distance between `P` and `Q`. -/
theorem transformWaypoints_preserves_distance (px py psi : ℝ) (ptsx ptsy : List ℝ)
    (hlen : ptsx.length = ptsy.length) :
    ∃ tx ty, transformWaypoints Real.cos Real.sin px py psi ptsx ptsy = some (tx, ty) ∧
      ∀ (i j : Nat) (xi yi xj yj : ℝ),
        ptsx[i]? = some xi → ptsy[i]? = some yi →
        ptsx[j]? = some xj → ptsy[j]? = some yj →
        ∃ txi tyi txj tyj,
          tx[i]? = some txi ∧ ty[i]? = some tyi ∧ tx[j]? = some txj ∧ ty[j]? = some tyj ∧
          txi = (xi - px) * Real.cos psi + (yi - py) * Real.sin psi ∧
          tyi = -((xi - px) * Real.sin psi) + (yi - py) * Real.cos psi ∧
          Real.sqrt ((txi - txj) ^ 2 + (tyi - tyj) ^ 2)
            = Real.sqrt ((xi - xj) ^ 2 + (yi - yj) ^ 2) := by
  refine ⟨_, _, transformWaypoints_eq Real.cos Real.sin px py psi ptsx ptsy hlen, ?_⟩
  intro i j xi yi xj yj hxi hyi hxj hyj
  have hsc : Real.sin psi ^ 2 + Real.cos psi ^ 2 = 1 := Real.sin_sq_add_cos_sq psi
  refine ⟨(xi - px) * Real.cos (-psi) - (yi - py) * Real.sin (-psi),
    (xi - px) * Real.sin (-psi) + (yi - py) * Real.cos (-psi),
    (xj - px) * Real.cos (-psi) - (yj - py) * Real.sin (-psi),
    (xj - px) * Real.sin (-psi) + (yj - py) * Real.cos (-psi), ?_, ?_, ?_, ?_, ?_, ?_, ?_⟩
  · simp only [List.getElem?_zipWith, hxi, hyi]
  · simp only [List.getElem?_zipWith, hxi, hyi]
  · simp only [List.getElem?_zipWith, hxj, hyj]
  · simp only [List.getElem?_zipWith, hxj, hyj]
  · rw [Real.cos_neg, Real.sin_neg]; ring
  · rw [Real.cos_neg, Real.sin_neg]; ring
  · congr 1
    rw [Real.cos_neg, Real.sin_neg]
    linear_combination ((xi - xj) ^ 2 + (yi - yj) ^ 2) * hsc

/-- The theorem of C9 for the pose `(1, 2, 0)` and the waypoints `(1, 2)` and
`(4, 6)`, which are 5 apart. -/
theorem transformWaypoints_preserves_distance_witness :
    ∃ tx ty, transformWaypoints Real.cos Real.sin 1 2 0 [1, 4] [2, 6] = some (tx, ty) ∧
      ∃ txi tyi txj tyj,
        tx[0]? = some txi ∧ ty[0]? = some tyi ∧ tx[1]? = some txj ∧ ty[1]? = some tyj ∧
        Real.sqrt ((txi - txj) ^ 2 + (tyi - tyj) ^ 2)
          = Real.sqrt (((1 : ℝ) - 4) ^ 2 + ((2 : ℝ) - 6) ^ 2) := by
  obtain ⟨tx, ty, h, hall⟩ :=
    transformWaypoints_preserves_distance 1 2 0 [1, 4] [2, 6] rfl
  obtain ⟨txi, tyi, txj, tyj, h1, h2, h3, h4, _, _, hd⟩ :=
    hall 0 1 1 2 4 6 (by simp) (by simp) (by simp) (by simp)
  exact ⟨tx, ty, h, txi, tyi, txj, tyj, h1, h2, h3, h4, hd⟩

/-- C10: for every telemetry message whose `ptsx` and `ptsy` have one length
`n ≥ 6`, no element access fails: the transform loop returns two vectors of
length `n`, both views of six entries exist, so `polyfit` gets its two
arguments, and these are the entries 0..5 of the transformed `ptsx` and
`ptsy`; the waypoints after the sixth do not reach the fit, which gets the
same arguments from the first six waypoints alone. -/
theorem fitInputs_accesses_in_bounds (px py psi : ℝ) (ptsx ptsy : List ℝ) (n : Nat)
    (hx : ptsx.length = n) (hy : ptsy.length = n) (hn : 6 ≤ n) :
    ∃ tx ty vx vy,
      transformWaypoints Real.cos Real.sin px py psi ptsx ptsy = some (tx, ty) ∧
      tx.length = n ∧ ty.length = n ∧
      mapView tx 6 = some vx ∧ mapView ty 6 = some vy ∧
      fitInputs Real.cos Real.sin px py psi ptsx ptsy = some (vx, vy) ∧
      vx.length = 6 ∧ vy.length = 6 ∧
      (∀ j : Nat, j < 6 → vx[j]? = tx[j]? ∧ vy[j]? = ty[j]?) ∧
      fitInputs Real.cos Real.sin px py psi (ptsx.take 6) (ptsy.take 6) = some (vx, vy) := by
  have hlen : ptsx.length = ptsy.length := by rw [hx, hy]
  have ht := transformWaypoints_eq Real.cos Real.sin px py psi ptsx ptsy hlen
  have hlx : (List.zipWith
      (fun x y => (x - px) * Real.cos (-psi) - (y - py) * Real.sin (-psi)) ptsx ptsy).length
      = n := by
    simp [hx, hy]
  have hly : (List.zipWith
      (fun x y => (x - px) * Real.sin (-psi) + (y - py) * Real.cos (-psi)) ptsx ptsy).length
      = n := by
    simp [hx, hy]
  have hvx := mapView_six _ (le_of_le_of_eq hn hlx.symm)
  have hvy := mapView_six _ (le_of_le_of_eq hn hly.symm)
  refine ⟨_, _, _, _, ht, hlx, hly, hvx, hvy, ?_, ?_, ?_, ?_, ?_⟩
  · simp only [fitInputs, ht, hvx, hvy]
  · rw [List.length_take, hlx]; omega
  · rw [List.length_take, hly]; omega
  · intro j hj
    exact ⟨List.getElem?_take_of_lt hj, List.getElem?_take_of_lt hj⟩
  · have hlen6 : (ptsx.take 6).length = (ptsy.take 6).length := by
      simp [hx, hy]
    have ht6 := transformWaypoints_eq Real.cos Real.sin px py psi _ _ hlen6
    have hl6x : 6 ≤ (List.zipWith
        (fun x y => (x - px) * Real.cos (-psi) - (y - py) * Real.sin (-psi))
        (ptsx.take 6) (ptsy.take 6)).length := by
      simp [hx, hy, hn]
    have hl6y : 6 ≤ (List.zipWith
        (fun x y => (x - px) * Real.sin (-psi) + (y - py) * Real.cos (-psi))
        (ptsx.take 6) (ptsy.take 6)).length := by
      simp [hx, hy, hn]
    simp only [fitInputs, ht6, mapView_six _ hl6x, mapView_six _ hl6y, List.take_zipWith,
      List.take_take, min_self]

/-- The theorem of C10 for a message of seven waypoints. -/
theorem fitInputs_accesses_in_bounds_witness :
    ([10, 11, 12, 13, 14, 15, 16] : List ℝ).length = 7 ∧
    ([20, 21, 22, 23, 24, 25, 26] : List ℝ).length = 7 ∧
    ∃ tx ty vx vy,
      transformWaypoints Real.cos Real.sin 1 2 0
        [10, 11, 12, 13, 14, 15, 16] [20, 21, 22, 23, 24, 25, 26] = some (tx, ty) ∧
      tx.length = 7 ∧ ty.length = 7 ∧
      mapView tx 6 = some vx ∧ mapView ty 6 = some vy ∧
      fitInputs Real.cos Real.sin 1 2 0
        [10, 11, 12, 13, 14, 15, 16] [20, 21, 22, 23, 24, 25, 26] = some (vx, vy) ∧
      vx.length = 6 ∧ vy.length = 6 ∧
      (∀ j : Nat, j < 6 → vx[j]? = tx[j]? ∧ vy[j]? = ty[j]?) ∧
      fitInputs Real.cos Real.sin 1 2 0
        (List.take 6 [10, 11, 12, 13, 14, 15, 16])
        (List.take 6 [20, 21, 22, 23, 24, 25, 26]) = some (vx, vy) :=
  ⟨rfl, rfl,
   fitInputs_accesses_in_bounds 1 2 0 [10, 11, 12, 13, 14, 15, 16]
     [20, 21, 22, 23, 24, 25, 26] 7 rfl rfl (by decide)⟩

end Waypoints

end MPC
